import Mathlib

/-
Verification of the spacy-layout core against its specification.

The Python sources are embedded shallowly:
* a spaCy token is a pair of its text and its trailing-whitespace flag;
* the tokenizer is a black box, so the span aligner receives each item's
  token list directly;
* Python floats are modelled as rationals;
* fallible code (IndexError, KeyError, AttributeError) returns Option,
  with `none` marking the raised exception;
* Python dicts are modelled as association lists with update-or-append
  insertion (update keeps the key's position, as CPython dicts do).
-/

namespace SpacyLayout

/-- One token of the flat stream built by `spaCyLayout._texts_to_doc`:
its text and its `whitespace_` flag (`spaces` entry). -/
structure Token where
  text : String
  ws : Bool
deriving DecidableEq, Repr

/-- State threaded through the loop of `_texts_to_doc`: the combined
`words`/`spaces` lists (kept in lock step as one token list), the running
`token_idx` cursor and the accumulated `span_data` list of
`(start, end)` pairs. -/
structure AlignState where
  toks : List Token
  tokenIdx : Nat
  spanData : List (Nat × Nat)
deriving DecidableEq, Repr

/-- Truthiness of the `separator` argument (`if self.sep:`): `None` and
the empty string are falsy. -/
def sepActive : Option String → Bool
  | none => false
  | some s => !s.isEmpty

/-- Model of the statement `spaces[-1] = b`: rewrite the flag of the last
token, failing (IndexError) on an empty list. -/
def setLastWs (b : Bool) : List Token → Option (List Token)
  | [] => none
  | [t] => some [⟨t.text, b⟩]
  | t :: t' :: ts => (setLastWs b (t' :: ts)).map (t :: ·)

/-- Total companion of `setLastWs` used in specifications: the empty
list is left unchanged. -/
def setLastWsT (b : Bool) : List Token → List Token
  | [] => []
  | [t] => [⟨t.text, b⟩]
  | t :: t' :: ts => t :: setLastWsT b (t' :: ts)

/-- One iteration of the loop body of `_texts_to_doc`: append the item's
tokens, inject the separator token when the separator is truthy (forcing
the preceding flag to `False`, which raises IndexError on an empty
stream), record the span's `(start, end)` and advance the cursor. -/
def alignItem (sep : Option String) (st : AlignState) (item : List Token) :
    Option AlignState :=
  let toks1 := st.toks ++ item
  let e := st.tokenIdx + item.length
  match sep with
  | some s =>
    if s.isEmpty then
      some ⟨toks1, e, st.spanData ++ [(st.tokenIdx, e)]⟩
    else
      match setLastWs false toks1 with
      | none => none
      | some toks2 =>
        some ⟨toks2 ++ [⟨s, false⟩], e + 1, st.spanData ++ [(st.tokenIdx, e)]⟩
  | none => some ⟨toks1, e, st.spanData ++ [(st.tokenIdx, e)]⟩

/-- The loop of `_texts_to_doc` over the list of items. -/
def alignGo (sep : Option String) : AlignState → List (List Token) → Option AlignState
  | st, [] => some st
  | st, item :: rest =>
    match alignItem sep st item with
    | none => none
    | some st2 => alignGo sep st2 rest

/-- `spaCyLayout._texts_to_doc`, restricted to its aligner core: from the
ordered token lists of the items (the tokenizer's output for each input
text) to the final token stream, cursor and span data. -/
def textsToDoc (sep : Option String) (inputs : List (List Token)) : Option AlignState :=
  alignGo sep ⟨[], 0, []⟩ inputs

/-- The separator token injected after each item when the separator is
truthy (its own whitespace flag is `False`). -/
def sepToks : Option String → List Token
  | none => []
  | some s => if s.isEmpty then [] else [⟨s, false⟩]

/-- Specification of the tokens one item contributes to the stream: its
own tokens (last flag forced to `False` when a separator is injected)
followed by the separator token. -/
def procItem (sep : Option String) (item : List Token) : List Token :=
  (if sepActive sep then setLastWsT false item else item) ++ sepToks sep

/-- Number of stream positions one item advances the cursor by. -/
def itemStride (sep : Option String) (item : List Token) : Nat :=
  item.length + (if sepActive sep then 1 else 0)

/-- Specification of the recorded span data, starting at cursor `idx`. -/
def spansFrom (sep : Option String) (idx : Nat) : List (List Token) → List (Nat × Nat)
  | [] => []
  | item :: rest => (idx, idx + item.length) :: spansFrom sep (idx + itemStride sep item) rest

/-- The token range `[start, end)` of a span, read off the stream. -/
def spanSlice (toks : List Token) (sp : Nat × Nat) : List Token :=
  (toks.drop sp.1).take (sp.2 - sp.1)

/-- The first item of the list is not the empty token list (vacuous for
an empty list of items). -/
def headNonempty (inputs : List (List Token)) : Prop :=
  match inputs with
  | [] => True
  | item :: _ => item ≠ []

/-- The stream ends in a token whose whitespace flag is `False`. -/
def lastWsFalse (l : List Token) : Prop :=
  ∃ init s, l = init ++ [Token.mk s false]

/-- Coordinate origin flag of a provenance bounding box
(`docling_core` `CoordOrigin`). -/
inductive CoordOrigin where
  | topleft
  | bottomleft
deriving DecidableEq, Repr

/-- A provenance bounding box: `l`, `t`, `r`, `b` coordinates plus the
origin flag. Floats are modelled as rationals. -/
structure BoundingBox where
  l : ℚ
  t : ℚ
  r : ℚ
  b : ℚ
  coord_origin : CoordOrigin
deriving DecidableEq, Repr

/-- `util.get_bounding_box`: normalize a box to top-left-origin
`(x, y, width, height)`. -/
def get_bounding_box (bbox : BoundingBox) (page_height : ℚ) : ℚ × ℚ × ℚ × ℚ :=
  let is_bottom := bbox.coord_origin = CoordOrigin.bottomleft
  let y := if is_bottom then page_height - bbox.t else bbox.t
  let height := if is_bottom then bbox.t - bbox.b else bbox.b - bbox.t
  let width := bbox.r - bbox.l
  (bbox.l, y, width, height)

/-- `types.PageLayout`. -/
structure PageLayout where
  page_no : Int
  width : ℚ
  height : ℚ
deriving DecidableEq, Repr

/-- `types.SpanLayout`. -/
structure SpanLayout where
  x : ℚ
  y : ℚ
  width : ℚ
  height : ℚ
  page_no : Int
deriving DecidableEq, Repr

/-- `types.DocLayout`. -/
structure DocLayout where
  pages : List PageLayout
deriving DecidableEq, Repr

/-- Update-or-append insertion into an association list, modelling
`d[k] = v` on a CPython dict: an existing key keeps its position and
gets the new value, a fresh key is appended. -/
def assocUpd {κ α : Type} [DecidableEq κ] (d : List (κ × α)) (k : κ) (v : α) :
    List (κ × α) :=
  if d.any (fun kv => decide (kv.1 = k)) then
    d.map (fun kv => if kv.1 = k then (k, v) else kv)
  else
    d ++ [(k, v)]

/-- Lookup in an association list, modelling `d.get(k)` / `d[k]`. -/
def assocFind {κ α : Type} [DecidableEq κ] (d : List (κ × α)) (k : κ) : Option α :=
  (d.find? (fun kv => decide (kv.1 = k))).map (·.2)

/-- One provenance entry of a Docling item: its page number and
bounding box. -/
structure BBoxProv where
  page_no : Int
  bbox : BoundingBox
deriving DecidableEq, Repr

/-- `spaCyLayout._get_span_layout`: from the item's provenance list and
the page dict. The outer `Option` is the error monad (a missing page is
a KeyError, `none`); the inner `Option` is the Python return value
(`None` when there is no provenance or the page size is falsy). -/
def get_span_layout (prov : List BBoxProv) (pages : List (Int × PageLayout)) :
    Option (Option SpanLayout) :=
  match prov with
  | [] => some none
  | p :: _ =>
    match assocFind pages p.page_no with
    | none => none
    | some page =>
      if page.width ≠ 0 ∧ page.height ≠ 0 then
        let r := get_bounding_box p.bbox page.height
        some (some ⟨r.1, r.2.1, r.2.2.1, r.2.2.2, p.page_no⟩)
      else
        some none

/-- Model of a span as consumed by `get_pages` and `get_heading`: its
label, its `span_id` (set to its index in the group) and its layout
extension attribute. -/
structure SpanM where
  label : String
  id : Nat
  layout : Option SpanLayout
deriving DecidableEq, Repr

/-- `spaCyLayout.get_pages`: build the `pages` and `page_spans` dicts
keyed by page number, then distribute every span of the group into
`page_spans` via `span_layout.page_no`. Reading `page_no` off a `None`
layout (AttributeError) and a missing `page_spans` key (KeyError) are
both modelled as `none`. -/
def get_pages (layoutPages : List PageLayout) (spans : List SpanM) :
    Option (List (PageLayout × List SpanM)) :=
  let pages := layoutPages.foldl (fun acc p => assocUpd acc p.page_no p)
    ([] : List (Int × PageLayout))
  let init := layoutPages.foldl (fun acc p => assocUpd acc p.page_no ([] : List SpanM)) []
  let filled := spans.foldlM (fun (acc : List (Int × List SpanM)) sp =>
    (match sp.layout with
    | none => none
    | some sl =>
      if acc.any (fun kv => decide (kv.1 = sl.page_no)) then
        some (acc.map (fun (kv : Int × List SpanM) =>
          if kv.1 = sl.page_no then (kv.1, kv.2 ++ [sp]) else kv))
      else
        none : Option (List (Int × List SpanM)))) init
  filled.bind (fun pageSpans =>
    pageSpans.mapM (fun (kv : Int × List SpanM) =>
      (assocFind pages kv.1).map (fun p => (p, kv.2))))

/-- `spaCyLayout.get_heading`: `None` for a heading-labelled span, else
the first heading-labelled span of `spans[: span.id][::-1]`. -/
def get_heading (headings : List String) (spans : List SpanM) (span : SpanM) :
    Option SpanM :=
  if span.label ∈ headings then none
  else ((spans.take span.id).reverse).find? (fun c => decide (c.label ∈ headings))

/-- `spaCyLayout.pipe` with `as_tuples=True` over a re-iterable source
(a list): the `data` and `contexts` generator expressions each iterate
the list independently, the external converter is modelled as the
element-wise function `conv`, and the results are zipped with the
contexts. -/
def pipeList {α β γ : Type} (conv : α → γ) (srcs : List (α × β)) : List (γ × β) :=
  (srcs.map (fun p => conv p.1)).zip (srcs.map (fun p => p.2))

/-- `spaCyLayout.pipe` with `as_tuples=True` over a one-shot iterator:
the `data` and `contexts` generator expressions share the iterator's
cursor. With the external converter modelled as lazily one-in-one-out,
the zip alternates pulls: `data` consumes element `2*i`, `contexts`
consumes element `2*i+1`. -/
def pipeOneShot {α β γ : Type} (conv : α → γ) : List (α × β) → List (γ × β)
  | x :: y :: rest => (conv x.1, y.2) :: pipeOneShot conv rest
  | _ => []

/-- Wire values of the msgpack-style codec: numbers, strings, lists and
string-keyed dicts (as association lists in insertion order). -/
inductive MsgVal where
  | mint (n : Int)
  | mrat (q : ℚ)
  | mstr (s : String)
  | mlist (l : List MsgVal)
  | mdict (d : List (String × MsgVal))

/-- Lookup of a key in a wire dict (`obj.get(k)`). -/
def dictGet (d : List (String × MsgVal)) (k : String) : Option MsgVal :=
  (d.find? (fun kv => decide (kv.1 = k))).map (·.2)

/-- Removal of a key from a wire dict (`obj.pop(k)`; dicts built by the
codec have unique keys, so removing every occurrence coincides). -/
def removeKey (k : String) : List (String × MsgVal) → List (String × MsgVal)
  | [] => []
  | kv :: rest => if kv.1 = k then removeKey k rest else kv :: removeKey k rest

/-- A geometry value owned by the codec: one of the three dataclasses of
`OBJ_TYPES`. -/
inductive GeomVal where
  | pg (p : PageLayout)
  | sp (s : SpanLayout)
  | dl (d : DocLayout)
deriving DecidableEq, Repr

/-- `dataclasses.asdict` of a `PageLayout`, in field order. -/
def pageLayoutToDict (p : PageLayout) : List (String × MsgVal) :=
  [("page_no", .mint p.page_no), ("width", .mrat p.width), ("height", .mrat p.height)]

/-- `dataclasses.asdict` of a `SpanLayout`, in field order. -/
def spanLayoutToDict (s : SpanLayout) : List (String × MsgVal) :=
  [("x", .mrat s.x), ("y", .mrat s.y), ("width", .mrat s.width),
    ("height", .mrat s.height), ("page_no", .mint s.page_no)]

/-- `dataclasses.asdict` of a `DocLayout` (recursive: pages become a
list of plain dicts), in field order. -/
def docLayoutToDict (d : DocLayout) : List (String × MsgVal) :=
  [("pages", .mlist (d.pages.map (fun p => .mdict (pageLayoutToDict p))))]

/-- `util.encode_obj` on a value it owns: the field dict plus the
`__type__` discriminator. -/
def encode_obj : GeomVal → MsgVal
  | .pg p => .mdict (pageLayoutToDict p ++ [("__type__", .mstr "PageLayout")])
  | .sp s => .mdict (spanLayoutToDict s ++ [("__type__", .mstr "SpanLayout")])
  | .dl d => .mdict (docLayoutToDict d ++ [("__type__", .mstr "DocLayout")])

/-- `PageLayout.from_dict`, i.e. `cls(**data)`: requires exactly the
three fields (a dict with unique keys, three entries and successful
lookups has no extra key). -/
def pageLayout_from_dict (d : List (String × MsgVal)) : Option PageLayout :=
  match dictGet d "page_no", dictGet d "width", dictGet d "height" with
  | some (.mint n), some (.mrat w), some (.mrat h) =>
    if d.length = 3 then some ⟨n, w, h⟩ else none
  | _, _, _ => none

/-- `SpanLayout.from_dict`, i.e. `cls(**data)`. -/
def spanLayout_from_dict (d : List (String × MsgVal)) : Option SpanLayout :=
  match dictGet d "x", dictGet d "y", dictGet d "width", dictGet d "height",
      dictGet d "page_no" with
  | some (.mrat x), some (.mrat y), some (.mrat w), some (.mrat h), some (.mint n) =>
    if d.length = 5 then some ⟨x, y, w, h, n⟩ else none
  | _, _, _, _, _ => none

/-- The list comprehension of `DocLayout.from_dict`: decode the page
dicts left to right, failing on a non-dict entry or a bad page dict. -/
def decodePages : List MsgVal → Option (List PageLayout)
  | [] => some []
  | v :: rest =>
    match v with
    | .mdict pd =>
      match pageLayout_from_dict pd, decodePages rest with
      | some p, some ps => some (p :: ps)
      | _, _ => none
    | _ => none

/-- `DocLayout.from_dict`: reads `data.get("pages", [])` and decodes
each page dict; other keys are ignored. -/
def docLayout_from_dict (d : List (String × MsgVal)) : Option DocLayout :=
  match dictGet d "pages" with
  | some (.mlist l) => (decodePages l).map (fun ps => DocLayout.mk ps)
  | some _ => none
  | none => some ⟨[]⟩

/-- `util.decode_obj`, value part: on a dict whose `__type__` names one
of the three known types, pop the discriminator and rebuild the value;
`none` stands for the pass-through (or for a `from_dict` failure). -/
def decode_obj : MsgVal → Option GeomVal
  | .mdict d =>
    (match dictGet d "__type__" with
    | some (.mstr t) =>
      if t = "PageLayout" then (pageLayout_from_dict (removeKey "__type__" d)).map GeomVal.pg
      else if t = "SpanLayout" then
        (spanLayout_from_dict (removeKey "__type__" d)).map GeomVal.sp
      else if t = "DocLayout" then
        (docLayout_from_dict (removeKey "__type__" d)).map GeomVal.dl
      else none
    | _ => none)
  | _ => none

/-- `util.decode_obj`, heap part: the state of the caller's dict after
the call. `obj.pop(TYPE_ATTR)` mutates the mapping exactly when its
`__type__` value is one of the three known type names. -/
def decode_obj_dict_after (d : List (String × MsgVal)) : List (String × MsgVal) :=
  match dictGet d "__type__" with
  | some (.mstr t) =>
    if t = "PageLayout" ∨ t = "SpanLayout" ∨ t = "DocLayout" then removeKey "__type__" d
    else d
  | _ => d

/-- A pandas DataFrame as the codec observes it: the ordered list of
columns, each a name with its cell values (cells are strings; the
default range index is left implicit). -/
abbrev DFrame : Type := List (String × List String)

/-- `util._ensure_unique_columns`, inner loop: `seen` is the
`seen_cols` dict (name to occurrence count), modelled as a function. -/
def uniqueGo (seen : String → Option Nat) : List String → List String
  | [] => []
  | c :: rest =>
    match seen c with
    | none => c :: uniqueGo (fun k => if k = c then some 1 else seen k) rest
    | some n =>
      (c ++ " (" ++ toString (n + 1) ++ ")") ::
        uniqueGo (fun k => if k = c then some (n + 1) else seen k) rest

/-- `util._ensure_unique_columns` on the column names. -/
def ensure_unique_columns (cols : List String) : List String :=
  uniqueGo (fun _ => none) cols

/-- The `df.columns = new_cols` assignment: the frame with renamed
columns and unchanged cell values. -/
def dedupDF (df : DFrame) : DFrame :=
  (ensure_unique_columns (df.map (·.1))).zip (df.map (·.2))

/-- `df.to_dict()`: a column-oriented dict built by inserting the
columns left to right; a repeated name overwrites the earlier column's
values in place. -/
def to_dict (df : DFrame) : List (String × List String) :=
  df.foldl (fun acc kv => assocUpd acc kv.1 kv.2) []

/-- The wire form produced by `util.encode_df`: the `data` dict and the
`__type__` tag. -/
structure DfWire where
  data : List (String × List String)
  tag : String
deriving DecidableEq, Repr

/-- `util.encode_df`: deduplicate the column names, then export with
`to_dict`. -/
def encode_df (df : DFrame) : DfWire :=
  ⟨to_dict (dedupDF df), "DataFrame"⟩

/-- `util.decode_df`: rebuild the frame from the `data` dict when the
tag matches; `none` stands for the pass-through. -/
def decode_df (w : DfWire) : Option DFrame :=
  if w.tag = "DataFrame" then some w.data else none

/-- Number of occurrences of a name in a list of column names. -/
def countOcc (c : String) : List String → Nat
  | [] => 0
  | x :: l => (if x = c then 1 else 0) + countOcc c l

section Theorems

/-- C2: for every bounding box with `left < right` and every page
height, the normalizer returns `x = left` and `width = right - left`;
with a bottom-left origin it returns `y = page_height - top` and
`height = top - bottom`, with a top-left origin `y = top` and
`height = bottom - top`; in particular the bottom-left box
`(l=100, t=200, r=400, b=50)` at page height 1000 normalizes to
`(100, 800, 300, 150)`. -/
theorem c2_bounding_box (bbox : BoundingBox) (page_height : ℚ)
    (h : bbox.l < bbox.r) :
    (get_bounding_box bbox page_height).1 = bbox.l ∧
    (get_bounding_box bbox page_height).2.2.1 = bbox.r - bbox.l ∧
    (bbox.coord_origin = CoordOrigin.bottomleft →
      (get_bounding_box bbox page_height).2.1 = page_height - bbox.t ∧
      (get_bounding_box bbox page_height).2.2.2 = bbox.t - bbox.b) ∧
    (bbox.coord_origin = CoordOrigin.topleft →
      (get_bounding_box bbox page_height).2.1 = bbox.t ∧
      (get_bounding_box bbox page_height).2.2.2 = bbox.b - bbox.t) ∧
    get_bounding_box ⟨100, 200, 400, 50, CoordOrigin.bottomleft⟩ 1000 =
      (100, 800, 300, 150) := by
  refine ⟨rfl, rfl, ?_, ?_, ?_⟩
  · intro hb
    simp [get_bounding_box, hb]
  · intro ht
    simp [get_bounding_box, ht]
  · simp [get_bounding_box]
    norm_num

/-- Witness for C2 at the specified concrete box. -/
theorem c2_bounding_box_witness :
    (100 : ℚ) < 400 ∧
    get_bounding_box ⟨100, 200, 400, 50, CoordOrigin.bottomleft⟩ 1000 =
      (100, 800, 300, 150) :=
  ⟨by norm_num,
    (c2_bounding_box ⟨100, 200, 400, 50, CoordOrigin.bottomleft⟩ 1000
      (by norm_num)).2.2.2.2⟩

/-- C3 (code bug): on a document whose span group contains a span with
`None` layout, `get_pages` evaluates `span_layout.page_no` on `None`
and raises (modelled as `none`) instead of omitting the span. -/
theorem c3_get_pages_crashes_on_none_layout :
    get_pages [⟨1, 500, 600⟩] [⟨"text", 0, none⟩] = none := rfl

/-- C5 (amended): over a re-iterable source such as a list, the batch
entry point pairs the i-th converted input with the i-th context, in
input order. -/
theorem c5_pipe_as_tuples_order {α β γ : Type} (conv : α → γ)
    (srcs : List (α × β)) :
    pipeList conv srcs = srcs.map (fun p => (conv p.1, p.2)) := by
  induction srcs with
  | nil => rfl
  | cons x rest ih =>
    simp only [pipeList, List.map_cons, List.zip_cons_cons, List.map] at ih ⊢
    rw [ih]

/-- C5 counterexample: over a one-shot iterator the two generator
expressions of `pipe` share the iterator, so the first yielded pair
combines input 0 with context 1 (and half the inputs are dropped). -/
theorem c5_pipe_one_shot_cex :
    pipeOneShot (fun (n : Nat) => n + 100) [(1, 10), (2, 20)] ≠
      [((1 : Nat), (10 : Nat)), (2, 20)].map (fun p => (p.1 + 100, p.2)) := by
  decide

/-- Key lookup after removing that key always fails. -/
theorem dictGet_removeKey (k : String) (d : List (String × MsgVal)) :
    dictGet (removeKey k d) k = none := by
  induction d with
  | nil => rfl
  | cons kv rest ih =>
    by_cases h : kv.1 = k
    · simpa [removeKey, h] using ih
    · simpa [removeKey, h, dictGet, List.find?_cons, h] using ih

/-- C10: when the decode hook recognizes the `__type__` of a mapping as
one of the three geometry types, it pops that key from the caller's
mapping: after the call the mapping no longer contains `__type__`. -/
theorem c10_decode_pops_type (d : List (String × MsgVal)) (t : String)
    (ht : dictGet d "__type__" = some (.mstr t))
    (hk : t = "PageLayout" ∨ t = "SpanLayout" ∨ t = "DocLayout") :
    dictGet (decode_obj_dict_after d) "__type__" = none := by
  unfold decode_obj_dict_after
  rw [ht]
  simp only [if_pos hk]
  exact dictGet_removeKey "__type__" d

/-- Witness for C10 on a concrete `PageLayout` wire dict. -/
theorem c10_decode_pops_type_witness :
    dictGet (decode_obj_dict_after
      [("page_no", MsgVal.mint 1), ("__type__", MsgVal.mstr "PageLayout")])
      "__type__" = none :=
  c10_decode_pops_type _ "PageLayout" rfl (Or.inl rfl)

/-- C9: provided every page number referenced by the first provenance
entry exists in the page dict (the construction invariant), the span
layout is computed from the first provenance bounding box exactly when
there is provenance and the page has nonzero width and height, and is
`None` (with no error) in every other case. -/
theorem c9_span_layout_cases (prov : List BBoxProv)
    (pages : List (Int × PageLayout))
    (hpage : ∀ p ps, prov = p :: ps → (assocFind pages p.page_no).isSome = true) :
    (get_span_layout prov pages).isSome = true ∧
    (prov = [] → get_span_layout prov pages = some none) ∧
    (∀ p ps page, prov = p :: ps → assocFind pages p.page_no = some page →
      ((page.width = 0 ∨ page.height = 0) → get_span_layout prov pages = some none) ∧
      (page.width ≠ 0 → page.height ≠ 0 →
        get_span_layout prov pages = some (some
          ⟨(get_bounding_box p.bbox page.height).1,
           (get_bounding_box p.bbox page.height).2.1,
           (get_bounding_box p.bbox page.height).2.2.1,
           (get_bounding_box p.bbox page.height).2.2.2, p.page_no⟩))) := by
  cases prov with
  | nil =>
    refine ⟨rfl, fun _ => rfl, ?_⟩
    intro p ps page hcons
    exact absurd hcons (by simp)
  | cons p ps =>
    have hsome := hpage p ps rfl
    obtain ⟨page, hpg⟩ : ∃ page, assocFind pages p.page_no = some page := by
      cases hfind : assocFind pages p.page_no with
      | none => rw [hfind] at hsome; exact absurd hsome (by simp)
      | some pg => exact ⟨pg, rfl⟩
    have heval : get_span_layout (p :: ps) pages =
        (if page.width ≠ 0 ∧ page.height ≠ 0 then
          some (some ⟨(get_bounding_box p.bbox page.height).1,
            (get_bounding_box p.bbox page.height).2.1,
            (get_bounding_box p.bbox page.height).2.2.1,
            (get_bounding_box p.bbox page.height).2.2.2, p.page_no⟩)
        else some none) := by
      simp only [get_span_layout, hpg]
    refine ⟨?_, ?_, ?_⟩
    · rw [heval]
      by_cases hwh : page.width ≠ 0 ∧ page.height ≠ 0 <;> simp [hwh]
    · intro hnil; exact absurd hnil (by simp)
    · intro p' ps' page' hcons hpg'
      obtain ⟨hp, hps⟩ : p' = p ∧ ps' = ps := by
        constructor <;> [exact (List.cons.injEq .. ▸ hcons).1.symm;
          exact (List.cons.injEq .. ▸ hcons).2.symm]
      subst hp; subst hps
      rw [hpg] at hpg'
      obtain rfl : page = page' := by injection hpg'
      constructor
      · intro hzero
        rw [heval, if_neg]
        intro ⟨hw, hh⟩
        cases hzero with
        | inl h0 => exact hw h0
        | inr h0 => exact hh h0
      · intro hw hh
        rw [heval, if_pos ⟨hw, hh⟩]

/-- Occurrence counts add over list append. -/
theorem countOcc_append (c : String) (l m : List String) :
    countOcc c (l ++ m) = countOcc c l + countOcc c m := by
  induction l with
  | nil => simp [countOcc]
  | cons x xs ih => simp [countOcc, ih, Nat.add_assoc]

/-- Characterization of the dedup loop: with `seen` recording exactly
the occurrence counts over the already-processed prefix `pre`, the i-th
output is the i-th input, renamed by its occurrence index when that
index exceeds one. -/
theorem uniqueGo_spec (cols : List String) :
    ∀ (i : Nat) (seen : String → Option Nat) (pre : List String),
      (∀ c, (seen c = none → countOcc c pre = 0) ∧
        (∀ n, seen c = some n → countOcc c pre = n ∧ 0 < n)) →
      (uniqueGo seen cols).get? i =
        (cols.get? i).map (fun c =>
          if countOcc c pre + countOcc c (cols.take (i + 1)) = 1 then c
          else c ++ " (" ++
            toString (countOcc c pre + countOcc c (cols.take (i + 1))) ++ ")") := by
  induction cols with
  | nil => intro i seen pre _; rfl
  | cons c0 rest ih =>
    intro i seen pre hrel
    have hstep : ∀ (j : Nat) (seen2 : String → Option Nat),
        (∀ k, seen2 k = if k = c0 then some (countOcc c0 pre + 1) else seen k) →
        (uniqueGo seen2 rest).get? j =
          ((c0 :: rest).get? (j + 1)).map (fun c =>
            if countOcc c pre + countOcc c ((c0 :: rest).take (j + 1 + 1)) = 1 then c
            else c ++ " (" ++
              toString (countOcc c pre +
                countOcc c ((c0 :: rest).take (j + 1 + 1))) ++ ")") := by
      intro j seen2 hseen2
      have hrel2 : ∀ c, (seen2 c = none → countOcc c (pre ++ [c0]) = 0) ∧
          (∀ n, seen2 c = some n → countOcc c (pre ++ [c0]) = n ∧ 0 < n) := by
        intro c
        rw [hseen2 c]
        by_cases hc : c = c0
        · rw [if_pos hc]
          subst hc
          refine ⟨fun hcon => by simp at hcon, fun n hn => ?_⟩
          have hinj : countOcc c pre + 1 = n := by injection hn
          rw [countOcc_append]
          constructor

          · simpa [countOcc] using hinj
          · omega
        · rw [if_neg hc]
          have hc0 : countOcc c [c0] = 0 := by
            simp [countOcc]
            intro h
            exact absurd h.symm hc
          refine ⟨fun hn => ?_, fun n hn => ?_⟩
          · rw [countOcc_append, hc0, (hrel c).1 hn]
          · rw [countOcc_append, hc0]
            simpa using (hrel c).2 n hn
      rw [ih j seen2 (pre ++ [c0]) hrel2]
      rw [List.get?_cons_succ]
      apply Option.map_congr
      intro c _
      have hcnt : countOcc c (pre ++ [c0]) + countOcc c (rest.take (j + 1)) =
          countOcc c pre + countOcc c ((c0 :: rest).take (j + 1 + 1)) := by
        simp [countOcc_append, countOcc, List.take_succ_cons, Nat.add_assoc]
      rw [hcnt]
    cases hs : seen c0 with
    | none =>
      have h0 : countOcc c0 pre = 0 := (hrel c0).1 hs
      cases i with
      | zero =>
        simp [uniqueGo, hs, List.take_succ_cons, countOcc, h0]
      | succ i =>
        have hL : (uniqueGo seen (c0 :: rest)).get? (i + 1) =
            (uniqueGo (fun k => if k = c0 then some 1 else seen k) rest).get? i := by
          simp [uniqueGo, hs]
        rw [hL]
        exact hstep i _ (fun k => by rw [h0])
    | some n =>
      obtain ⟨hn, hpos⟩ := (hrel c0).2 n hs
      cases i with
      | zero =>
        have hcount : countOcc c0 pre + countOcc c0 ((c0 :: rest).take (0 + 1)) =
            n + 1 := by
          simp [List.take_succ_cons, countOcc, hn]
        simp only [uniqueGo, hs, List.get?_cons_zero, Option.map_some']
        rw [hcount, if_neg (by omega)]
      | succ i =>
        have hL : (uniqueGo seen (c0 :: rest)).get? (i + 1) =
            (uniqueGo (fun k => if k = c0 then some (n + 1) else seen k) rest).get? i := by
          simp [uniqueGo, hs]
        rw [hL]
        exact hstep i _ (fun k => by rw [hn])

/-- C8: the dedup pass keeps the first occurrence of each column name
and renames the k-th occurrence (k at least 2) to the name followed by
a parenthesized k. -/
theorem c8_column_dedup (cols : List String) (i : Nat) :
    (ensure_unique_columns cols).get? i =
      (cols.get? i).map (fun c =>
        if countOcc c (cols.take (i + 1)) = 1 then c
        else c ++ " (" ++ toString (countOcc c (cols.take (i + 1))) ++ ")") := by
  have h := uniqueGo_spec cols i (fun _ => none) []
    (fun c => ⟨fun _ => rfl, fun n hn => by simp at hn⟩)
  simpa [ensure_unique_columns, countOcc] using h

/-- Decoding the encoded page list recovers the pages. -/
theorem decodePages_encoded (ps : List PageLayout) :
    decodePages (ps.map (fun p => MsgVal.mdict (pageLayoutToDict p))) = some ps := by
  induction ps with
  | nil => rfl
  | cons p rest ih =>
    rw [List.map_cons]
    show (match pageLayout_from_dict (pageLayoutToDict p),
        decodePages (rest.map (fun p => MsgVal.mdict (pageLayoutToDict p))) with
      | some p, some ps => some (p :: ps)
      | _, _ => none) = some (p :: rest)
    rw [ih]
    rfl

/-- Folding dict insertion over entries with pairwise-distinct keys
appends them unchanged. -/
theorem foldl_assocUpd_nodup {α : Type} :
    ∀ (df : List (String × α)) (acc : List (String × α)),
      ((acc.map (·.1) ++ df.map (·.1)).Nodup) →
      df.foldl (fun a kv => assocUpd a kv.1 kv.2) acc = acc ++ df := by
  intro df
  induction df with
  | nil => intro acc _; simp
  | cons kv rest ih =>
    intro acc h
    have hnotin : kv.1 ∉ acc.map (·.1) := by
      have hdisj := List.disjoint_of_nodup_append h
      intro hmem
      exact hdisj hmem (by simp)
    have hany : (acc.any fun kv' => decide (kv'.1 = kv.1)) = false := by
      apply Bool.eq_false_iff.mpr
      intro htrue
      rw [List.any_eq_true] at htrue
      obtain ⟨x, hxmem, hxd⟩ := htrue
      have hx : x.1 = kv.1 := of_decide_eq_true hxd
      exact hnotin (hx ▸ List.mem_map_of_mem (·.1) hxmem)
    rw [List.foldl_cons]
    rw [show assocUpd acc kv.1 kv.2 = acc ++ [kv] from by simp [assocUpd, hany]]
    rw [ih (acc ++ [kv]) (by simpa [List.append_assoc] using h)]
    simp

/-- A column dict with pairwise-distinct names is its own `to_dict`. -/
theorem to_dict_self (df : DFrame) (h : (df.map (·.1)).Nodup) : to_dict df = df := by
  have hfold := foldl_assocUpd_nodup df [] (by simpa using h)
  simpa [to_dict] using hfold

/-- C7 (amended): decoding the encoding of any of the three geometry
values yields the original, and decoding the encoding of a tabular
value yields the dedup-renamed original whenever the dedup pass left
the column names pairwise distinct (the pass can fail to do so when an
original column is itself named like a generated name). -/
theorem c7_codec_roundtrip (g : GeomVal) (df : DFrame)
    (h : ((dedupDF df).map (·.1)).Nodup) :
    decode_obj (encode_obj g) = some g ∧
    decode_df (encode_df df) = some (dedupDF df) := by
  constructor
  · cases g with
    | pg p => rfl
    | sp s => rfl
    | dl d =>
      simp only [encode_obj, decode_obj, docLayoutToDict]
      simp only [dictGet, List.find?, removeKey]
      simp [docLayout_from_dict, dictGet, List.find?, decodePages_encoded]
  · show decode_df ⟨to_dict (dedupDF df), "DataFrame"⟩ = some (dedupDF df)
    rw [show decode_df ⟨to_dict (dedupDF df), "DataFrame"⟩ =
      some (to_dict (dedupDF df)) from rfl]
    rw [to_dict_self _ h]

/-- C7 counterexample: with columns named `a`, `a`, `a (2)` the dedup
pass renames the second `a` to `a (2)`, colliding with the third
column; `to_dict` then collapses the two, so the round trip loses a
column and does not return the dedup-renamed original. -/
theorem c7_codec_roundtrip_cex :
    decode_df (encode_df [("a", ["0"]), ("a", ["1"]), ("a (2)", ["2"])]) ≠
      some (dedupDF [("a", ["0"]), ("a", ["1"]), ("a (2)", ["2"])]) := by
  decide

/-- Witness for C7 on a concrete geometry value and a frame whose
dedup-renamed columns are distinct. -/
theorem c7_codec_roundtrip_witness :
    (((dedupDF [("a", ["0"]), ("b", ["1"])]).map (·.1)).Nodup) ∧
    (decode_obj (encode_obj (GeomVal.pg ⟨1, 500, 600⟩)) =
        some (GeomVal.pg ⟨1, 500, 600⟩) ∧
      decode_df (encode_df [("a", ["0"]), ("b", ["1"])]) =
        some (dedupDF [("a", ["0"]), ("b", ["1"])])) :=
  ⟨by decide, c7_codec_roundtrip (GeomVal.pg ⟨1, 500, 600⟩) _ (by decide)⟩

/-- Characterization of `find?` on a reversed list: it returns the last
match, i.e. the element whose suffix contains no match. -/
theorem find?_reverse_decomp {α : Type} (p : α → Bool) (l : List α) (r : α) :
    l.reverse.find? p = some r ↔
      ∃ l1 l2, l = l1 ++ r :: l2 ∧ p r = true ∧ ∀ x ∈ l2, p x = false := by
  induction l using List.reverseRecOn with
  | nil =>
    simp
  | append_singleton m a ih =>
    rw [List.reverse_append, List.reverse_singleton, List.singleton_append,
      List.find?_cons]
    cases hpa : p a with
    | true =>
      simp only []
      constructor
      · intro hsome
        obtain rfl : a = r := by injection hsome
        exact ⟨m, [], rfl, hpa, by simp⟩
      · rintro ⟨l1, l2, heq, hpr, hl2⟩
        rcases List.eq_nil_or_concat l2 with rfl | ⟨l2i, b, rfl⟩
        · have heq' : m ++ [a] = l1 ++ [r] := heq
          obtain ⟨-, hab⟩ := List.append_inj' heq' rfl
          obtain rfl : a = r := by simpa using hab
          rfl
        · have heq' : m ++ [a] = (l1 ++ r :: l2i) ++ [b] := by
            rw [heq]
            simp [List.concat_eq_append, List.append_assoc]
          obtain ⟨-, hab⟩ := List.append_inj' heq' rfl
          obtain rfl : a = b := by simpa using hab
          have hfb : p a = false := hl2 a (by simp [List.concat_eq_append])
          rw [hpa] at hfb
          cases hfb
    | false =>
      simp only []
      rw [ih]
      constructor
      · rintro ⟨l1, l2, rfl, hpr, hl2⟩
        refine ⟨l1, l2 ++ [a], by simp, hpr, ?_⟩
        intro x hx
        rcases List.mem_append.mp hx with hx | hx
        · exact hl2 x hx
        · obtain rfl : x = a := by simpa using hx
          exact hpa
      · rintro ⟨l1, l2, heq, hpr, hl2⟩
        rcases List.eq_nil_or_concat l2 with rfl | ⟨l2i, b, rfl⟩
        · have heq' : m ++ [a] = l1 ++ [r] := heq
          obtain ⟨-, hab⟩ := List.append_inj' heq' rfl
          obtain rfl : a = r := by simpa using hab
          rw [hpa] at hpr
          cases hpr
        · have heq' : m ++ [a] = (l1 ++ r :: l2i) ++ [b] := by
            rw [heq]
            simp [List.concat_eq_append, List.append_assoc]
          obtain ⟨hm, hab⟩ := List.append_inj' heq' rfl
          exact ⟨l1, l2i, hm, hpr,
            fun x hx => hl2 x (by simp [List.concat_eq_append, hx])⟩

/-- C6: for the span stored at group index i (whose `span_id` is i, as
set at construction), `get_heading` returns `None` when the span's own
label is a heading label; otherwise it returns exactly the nearest
strictly-preceding span with a heading label (some r iff the prefix
before i decomposes as everything-before, r, then spans none of which
have a heading label), and `None` iff no preceding span has a heading
label. -/
theorem c6_heading_lookup (headings : List String) (spans : List SpanM) (i : Nat)
    (hi : i < spans.length) (hid : (spans.get ⟨i, hi⟩).id = i) :
    ((spans.get ⟨i, hi⟩).label ∈ headings →
      get_heading headings spans (spans.get ⟨i, hi⟩) = none) ∧
    ((spans.get ⟨i, hi⟩).label ∉ headings →
      (∀ r, get_heading headings spans (spans.get ⟨i, hi⟩) = some r ↔
        ∃ l1 l2, spans.take i = l1 ++ r :: l2 ∧ r.label ∈ headings ∧
          ∀ x ∈ l2, x.label ∉ headings) ∧
      (get_heading headings spans (spans.get ⟨i, hi⟩) = none ↔
        ∀ x ∈ spans.take i, x.label ∉ headings)) := by
  constructor
  · intro hmem
    unfold get_heading
    rw [if_pos hmem]
  · intro hmem
    have hun : get_heading headings spans (spans.get ⟨i, hi⟩) =
        ((spans.take i).reverse).find? (fun c => decide (c.label ∈ headings)) := by
      unfold get_heading
      rw [if_neg hmem, hid]
    constructor
    · intro r
      rw [hun, find?_reverse_decomp]
      constructor
      · rintro ⟨l1, l2, heq, hpr, hl2⟩
        refine ⟨l1, l2, heq, of_decide_eq_true hpr, fun x hx => ?_⟩
        simpa using hl2 x hx
      · rintro ⟨l1, l2, heq, hpr, hl2⟩
        refine ⟨l1, l2, heq, decide_eq_true hpr, fun x hx => ?_⟩
        simpa using hl2 x hx
    · rw [hun, List.find?_eq_none]
      simp [List.mem_reverse]

/-- Witness for C6: in a two-span group, the heading of the second span
is the preceding title span. -/
theorem c6_heading_lookup_witness :
    get_heading ["title"] [⟨"title", 0, none⟩, ⟨"text", 1, none⟩] ⟨"text", 1, none⟩ =
      some ⟨"title", 0, none⟩ := by
  have h := (c6_heading_lookup ["title"] [⟨"title", 0, none⟩, ⟨"text", 1, none⟩] 1
    (by decide) rfl).2 (by decide)
  exact (h.1 ⟨"title", 0, none⟩).mpr ⟨[], [], rfl, by decide, by simp⟩

/-- Witness for C9 on a concrete provenance and page. -/
theorem c9_span_layout_witness :
    get_span_layout [⟨1, ⟨100, 200, 400, 50, CoordOrigin.bottomleft⟩⟩]
      [(1, ⟨1, 500, 1000⟩)] = some (some ⟨100, 800, 300, 150, 1⟩) := by
  have h := (c9_span_layout_cases [⟨1, ⟨100, 200, 400, 50, CoordOrigin.bottomleft⟩⟩]
    [(1, ⟨1, 500, 1000⟩)] (by intro p ps hp; cases hp; rfl)).2.2
  have h2 := (h ⟨1, ⟨100, 200, 400, 50, CoordOrigin.bottomleft⟩⟩ [] ⟨1, 500, 1000⟩
    rfl rfl).2 (by norm_num) (by norm_num)
  rw [h2]
  norm_num [get_bounding_box]

/-- Setting the last flag commutes with cons on a nonempty tail. -/
theorem setLastWsT_cons_of_ne (b : Bool) (t : Token) (l : List Token) (h : l ≠ []) :
    setLastWsT b (t :: l) = t :: setLastWsT b l := by
  cases l with
  | nil => exact absurd rfl h
  | cons t' ts => rfl

/-- On a nonempty list the fallible flag assignment succeeds and agrees
with its total companion. -/
theorem setLastWs_eq_some (b : Bool) (l : List Token) (h : l ≠ []) :
    setLastWs b l = some (setLastWsT b l) := by
  induction l with
  | nil => exact absurd rfl h
  | cons t ts ih =>
    cases ts with
    | nil => rfl
    | cons t' ts' =>
      show (setLastWs b (t' :: ts')).map (t :: ·) = _
      rw [ih (by simp), setLastWsT_cons_of_ne b t (t' :: ts') (by simp)]
      rfl

/-- Setting the last flag preserves length. -/
theorem setLastWsT_length (b : Bool) (l : List Token) :
    (setLastWsT b l).length = l.length := by
  induction l with
  | nil => rfl
  | cons t ts ih =>
    cases ts with
    | nil => rfl
    | cons t' ts' =>
      rw [setLastWsT_cons_of_ne b t (t' :: ts') (by simp)]
      simpa using ih

/-- Setting the last flag only touches the appended nonempty suffix. -/
theorem setLastWsT_append (b : Bool) (xs ys : List Token) (h : ys ≠ []) :
    setLastWsT b (xs ++ ys) = xs ++ setLastWsT b ys := by
  induction xs with
  | nil => rfl
  | cons x xs ih =>
    have hne : xs ++ ys ≠ [] := by
      simp [h]
    rw [List.cons_append, setLastWsT_cons_of_ne b x (xs ++ ys) hne, ih]
    rfl

/-- Setting the last flag rewrites exactly the final token. -/
theorem setLastWsT_concat (b : Bool) (l : List Token) (t : Token) :
    setLastWsT b (l ++ [t]) = l ++ [⟨t.text, b⟩] := by
  rw [setLastWsT_append b l [t] (by simp)]
  rfl

/-- A stream already ending in a cleared flag is a fixed point. -/
theorem setLastWsT_of_lastWsFalse (l : List Token) (h : lastWsFalse l) :
    setLastWsT false l = l := by
  obtain ⟨init, s, rfl⟩ := h
  rw [setLastWsT_concat]

/-- Characterization of the aligner loop: from any state satisfying the
loop invariant (a nonempty stream ends in a cleared flag, and an empty
stream only meets a nonempty first item when the separator is active),
the loop succeeds and appends, per item, its processed tokens, its
stride and its span. -/
theorem alignGo_eq (sep : Option String) (inputs : List (List Token)) :
    ∀ st : AlignState,
      (sepActive sep = true → st.toks = [] → headNonempty inputs) →
      (sepActive sep = true → st.toks ≠ [] → lastWsFalse st.toks) →
      alignGo sep st inputs =
        some ⟨st.toks ++ (inputs.map (procItem sep)).flatten,
              st.tokenIdx + (inputs.map (itemStride sep)).sum,
              st.spanData ++ spansFrom sep st.tokenIdx inputs⟩ := by
  induction inputs with
  | nil =>
    intro st h1 h2
    simp [alignGo, spansFrom]
  | cons item rest ih =>
    intro st h1 h2
    cases sep with
    | none =>
      show alignGo none ⟨st.toks ++ item, st.tokenIdx + item.length,
        st.spanData ++ [(st.tokenIdx, st.tokenIdx + item.length)]⟩ rest = _
      rw [ih _ (by intro hc; simp [sepActive] at hc)
        (by intro hc; simp [sepActive] at hc)]
      simp [procItem, sepToks, sepActive, itemStride, spansFrom,
        List.append_assoc, Nat.add_assoc]
    | some s =>
      by_cases hse : s.isEmpty
      · have hsa : sepActive (some s) = false := by
          simp [sepActive, hse]
        have hitem : alignItem (some s) st item = some
            ⟨st.toks ++ item, st.tokenIdx + item.length,
             st.spanData ++ [(st.tokenIdx, st.tokenIdx + item.length)]⟩ := by
          simp only [alignItem]
          rw [if_pos hse]
        simp only [alignGo]
        rw [hitem]
        show alignGo (some s) ⟨st.toks ++ item, st.tokenIdx + item.length,
          st.spanData ++ [(st.tokenIdx, st.tokenIdx + item.length)]⟩ rest = _
        rw [ih _ (by intro hc; rw [hsa] at hc; cases hc)
          (by intro hc; rw [hsa] at hc; cases hc)]
        simp [procItem, sepToks, sepActive, hse, itemStride, spansFrom,
          List.append_assoc, Nat.add_assoc]
      · have hsa : sepActive (some s) = true := by
          simp [sepActive, hse]
        have hset : setLastWs false (st.toks ++ item) =
            some (st.toks ++ setLastWsT false item) := by
          cases hit : item with
          | nil =>
            have hst : st.toks ≠ [] := by
              intro hst0
              have hhead := h1 hsa hst0
              rw [hit] at hhead
              exact hhead rfl
            rw [List.append_nil, setLastWs_eq_some false st.toks hst,
              setLastWsT_of_lastWsFalse st.toks (h2 hsa hst)]
            simp [setLastWsT]
          | cons t ts =>
            rw [setLastWs_eq_some false (st.toks ++ t :: ts) (by simp),
              setLastWsT_append false st.toks (t :: ts) (by simp)]
        have hitem : alignItem (some s) st item = some
            ⟨(st.toks ++ setLastWsT false item) ++ [⟨s, false⟩],
             st.tokenIdx + item.length + 1,
             st.spanData ++ [(st.tokenIdx, st.tokenIdx + item.length)]⟩ := by
          simp only [alignItem]
          rw [if_neg hse, hset]
        simp only [alignGo]
        rw [hitem]
        show alignGo (some s) ⟨(st.toks ++ setLastWsT false item) ++ [⟨s, false⟩],
          st.tokenIdx + item.length + 1,
          st.spanData ++ [(st.tokenIdx, st.tokenIdx + item.length)]⟩ rest = _
        rw [ih _ (by intro _ hc; simp at hc)
          (by intro _ _; exact ⟨st.toks ++ setLastWsT false item, s, rfl⟩)]
        simp [procItem, sepToks, sepActive, hse, itemStride, spansFrom,
          List.append_assoc, Nat.add_assoc]



/-- Closed form of the aligner on a fresh state, provided the first
item is nonempty whenever a separator is active. -/
theorem textsToDoc_char (sep : Option String) (inputs : List (List Token))
    (h : sepActive sep = true → headNonempty inputs) :
    textsToDoc sep inputs =
      some ⟨(inputs.map (procItem sep)).flatten,
            (inputs.map (itemStride sep)).sum,
            spansFrom sep 0 inputs⟩ := by
  have hgo := alignGo_eq sep inputs ⟨[], 0, []⟩
    (fun hs _ => h hs) (fun _ hne => absurd rfl hne)
  simpa [textsToDoc] using hgo

/-- With a truthy separator, a zero-token first item makes
`spaces[-1] = False` hit an empty list: the aligner raises IndexError. -/
theorem textsToDoc_first_empty (s : String) (hs : ¬ s.isEmpty)
    (rest : List (List Token)) :
    textsToDoc (some s) ([] :: rest) = none := by
  show (match alignItem (some s) ⟨[], 0, []⟩ [] with
    | none => none
    | some st2 => alignGo (some s) st2 rest) = none
  rw [show alignItem (some s) ⟨[], 0, []⟩ [] = none from by
    simp only [alignItem]
    rw [if_neg hs]
    rfl]

/-- If the aligner succeeded, the first item was nonempty whenever a
separator was active. -/
theorem textsToDoc_success_head (sep : Option String) (inputs : List (List Token))
    (st : AlignState) (h : textsToDoc sep inputs = some st) :
    sepActive sep = true → headNonempty inputs := by
  intro hsep
  cases inputs with
  | nil => trivial
  | cons item rest =>
    cases item with
    | nil =>
      cases sep with
      | none => simp [sepActive] at hsep
      | some s =>
        have hs : ¬ s.isEmpty := by
          simpa [sepActive] using hsep
        rw [textsToDoc_first_empty s hs rest] at h
        cases h
    | cons t ts =>
      intro hcon
      cases hcon

/-- Each processed item contributes exactly its stride in tokens. -/
theorem procItem_length (sep : Option String) (item : List Token) :
    (procItem sep item).length = itemStride sep item := by
  cases sep with
  | none => simp [procItem, sepToks, sepActive, itemStride]
  | some s =>
    by_cases hse : s.isEmpty <;>
      simp [procItem, sepToks, sepActive, hse, itemStride, setLastWsT_length]

/-- The final stream length is the sum of the strides. -/
theorem flatten_procItem_length (sep : Option String) (inputs : List (List Token)) :
    ((inputs.map (procItem sep)).flatten).length =
      (inputs.map (itemStride sep)).sum := by
  rw [List.length_flatten, List.map_map]
  congr 1
  exact List.map_congr_left (fun item _ => procItem_length sep item)

/-- The i-th recorded span starts at the sum of the preceding strides
and spans exactly the i-th item's token count. -/
theorem spansFrom_get? (sep : Option String) :
    ∀ (inputs : List (List Token)) (idx i : Nat),
      (spansFrom sep idx inputs).get? i =
        (inputs.get? i).map (fun item =>
          (idx + ((inputs.take i).map (itemStride sep)).sum,
           idx + ((inputs.take i).map (itemStride sep)).sum + item.length)) := by
  intro inputs
  induction inputs with
  | nil => intro idx i; rfl
  | cons item rest ih =>
    intro idx i
    cases i with
    | zero => simp [spansFrom]
    | succ i =>
      show (spansFrom sep (idx + itemStride sep item) rest).get? i = _
      rw [ih (idx + itemStride sep item) i]
      rw [List.get?_cons_succ]
      apply Option.map_congr
      intro a _
      simp [List.take_succ_cons, Nat.add_assoc]

/-- Recorded spans stay within the stride-sum bounds. -/
theorem spansFrom_bounds (sep : Option String) :
    ∀ (inputs : List (List Token)) (idx : Nat),
      ∀ sp ∈ spansFrom sep idx inputs,
        idx ≤ sp.1 ∧ sp.1 ≤ sp.2 ∧
          sp.2 ≤ idx + (inputs.map (itemStride sep)).sum := by
  intro inputs
  induction inputs with
  | nil =>
    intro idx sp hsp
    simp [spansFrom] at hsp
  | cons item rest ih =>
    intro idx sp hsp
    rcases List.mem_cons.mp hsp with rfl | hsp
    · have hle : item.length ≤ itemStride sep item := Nat.le_add_right _ _
      refine ⟨Nat.le_refl idx, Nat.le_add_right _ _, ?_⟩
      simp only [List.map_cons, List.sum_cons]
      omega
    · obtain ⟨hh1, hh2, hh3⟩ := ih (idx + itemStride sep item) sp hsp
      refine ⟨le_trans (Nat.le_add_right _ _) hh1, hh2, ?_⟩
      simp only [List.map_cons, List.sum_cons]
      omega

/-- Consecutive recorded spans do not overlap. -/
theorem spansFrom_chain (sep : Option String) :
    ∀ (inputs : List (List Token)) (idx : Nat),
      List.Chain' (fun a b => a.2 ≤ b.1) (spansFrom sep idx inputs) := by
  intro inputs
  induction inputs with
  | nil => intro idx; simp [spansFrom]
  | cons item rest ih =>
    intro idx
    show List.Chain' (fun a b => a.2 ≤ b.1)
      ((idx, idx + item.length) :: spansFrom sep (idx + itemStride sep item) rest)
    rw [List.chain'_cons']
    constructor
    · intro y hy
      cases rest with
      | nil => simp [spansFrom] at hy
      | cons it2 r2 =>
        have hy' : y = (idx + itemStride sep item,
            idx + itemStride sep item + it2.length) := by
          have := hy
          simp [spansFrom] at this
          exact this.symm
        have hle : item.length ≤ itemStride sep item := Nat.le_add_right _ _
        rw [hy']
        show idx + item.length ≤ idx + itemStride sep item
        omega
    · exact ih (idx + itemStride sep item)

/-- Interleaving identity: reading each span's slice off the stream and
re-inserting the separator tokens reproduces the stream. -/
theorem spanSlice_flatten (sep : Option String) :
    ∀ (inputs : List (List Token)) (pre : List Token),
      ((spansFrom sep pre.length inputs).map
        (fun sp => spanSlice (pre ++ (inputs.map (procItem sep)).flatten) sp ++
          sepToks sep)).flatten
        = (inputs.map (procItem sep)).flatten := by
  intro inputs
  induction inputs with
  | nil => intro pre; simp [spansFrom]
  | cons item rest ih =>
    intro pre
    have hcore : ((if sepActive sep = true then setLastWsT false item else item) :
        List Token).length = item.length := by
      by_cases hsa : sepActive sep = true <;> simp [hsa, setLastWsT_length]
    have hslice : spanSlice (pre ++ ((item :: rest).map (procItem sep)).flatten)
        (pre.length, pre.length + item.length) ++ sepToks sep = procItem sep item := by
      unfold spanSlice
      simp only [List.map_cons, List.flatten_cons]
      rw [show pre ++ (procItem sep item ++ (rest.map (procItem sep)).flatten) =
        pre ++ (((if sepActive sep = true then setLastWsT false item else item) ++
          sepToks sep) ++ (rest.map (procItem sep)).flatten) from by rw [procItem]]
      rw [List.drop_left]
      show (((if sepActive sep = true then setLastWsT false item else item) ++
        sepToks sep) ++ (rest.map (procItem sep)).flatten).take
          (pre.length + item.length - pre.length) ++ sepToks sep = _
      rw [Nat.add_sub_cancel_left, List.append_assoc, List.take_left' hcore, procItem]
    show (((pre.length, pre.length + item.length) ::
        spansFrom sep (pre.length + itemStride sep item) rest).map
        (fun sp => spanSlice (pre ++ ((item :: rest).map (procItem sep)).flatten) sp ++
          sepToks sep)).flatten = _
    rw [List.map_cons, List.flatten_cons, hslice]
    have hidx : pre.length + itemStride sep item = (pre ++ procItem sep item).length := by
      simp [procItem_length]
    rw [show ((item :: rest).map (procItem sep)).flatten =
      procItem sep item ++ (rest.map (procItem sep)).flatten from by
        rw [List.map_cons, List.flatten_cons]]
    congr 1
    rw [hidx, ← List.append_assoc]
    exact ih (pre ++ procItem sep item)



/-- One span is recorded per item. -/
theorem spansFrom_length (sep : Option String) :
    ∀ (inputs : List (List Token)) (idx : Nat),
      (spansFrom sep idx inputs).length = inputs.length := by
  intro inputs
  induction inputs with
  | nil => intro idx; rfl
  | cons item rest ih =>
    intro idx
    simpa [spansFrom] using ih (idx + itemStride sep item)

/-- C1: whenever the aligner produces a result, every span lies within
the bounds of the token stream, consecutive spans do not overlap, the
i-th span's length is the i-th item's token count (the separator token
excluded), and concatenating the span slices with the injected
separator tokens re-between them yields exactly the full stream (i.e.
the concatenated span ranges equal the stream minus the injected
separators). -/
theorem c1_aligner_invariants (sep : Option String) (inputs : List (List Token))
    (st : AlignState) (h : textsToDoc sep inputs = some st) :
    st.spanData.length = inputs.length ∧
    (∀ sp ∈ st.spanData, sp.1 ≤ sp.2 ∧ sp.2 ≤ st.toks.length) ∧
    List.Chain' (fun a b => a.2 ≤ b.1) st.spanData ∧
    (∀ i, (st.spanData.get? i).map (fun sp => sp.2 - sp.1) =
      (inputs.get? i).map List.length) ∧
    (st.spanData.map (fun sp => spanSlice st.toks sp ++ sepToks sep)).flatten =
      st.toks := by
  have hchar := textsToDoc_char sep inputs (textsToDoc_success_head sep inputs st h)
  rw [h] at hchar
  obtain rfl : st = ⟨(inputs.map (procItem sep)).flatten,
      (inputs.map (itemStride sep)).sum, spansFrom sep 0 inputs⟩ := by
    injection hchar
  refine ⟨spansFrom_length sep inputs 0, ?_, spansFrom_chain sep inputs 0, ?_, ?_⟩
  · intro sp hsp
    obtain ⟨hb1, hb2, hb3⟩ := spansFrom_bounds sep inputs 0 sp hsp
    refine ⟨hb2, ?_⟩
    show sp.2 ≤ ((inputs.map (procItem sep)).flatten).length
    rw [flatten_procItem_length]
    simpa using hb3
  · intro i
    show ((spansFrom sep 0 inputs).get? i).map (fun sp => sp.2 - sp.1) = _
    rw [spansFrom_get?]
    rw [Option.map_map]
    apply Option.map_congr
    intro a _
    simp
  · have hfl := spanSlice_flatten sep inputs []
    simpa using hfl

/-- Witness for C1 on two items with the default separator. -/
theorem c1_aligner_invariants_witness :
    ([(0, 2), (3, 4)] : List (Nat × Nat)).length =
        [[Token.mk "a" true, Token.mk "b" true], [Token.mk "c" false]].length ∧
    (∀ sp ∈ ([(0, 2), (3, 4)] : List (Nat × Nat)), sp.1 ≤ sp.2 ∧
      sp.2 ≤ ([⟨"a", true⟩, ⟨"b", false⟩, ⟨"\n\n", false⟩, ⟨"c", false⟩,
        ⟨"\n\n", false⟩] : List Token).length) ∧
    List.Chain' (fun a b => a.2 ≤ b.1) ([(0, 2), (3, 4)] : List (Nat × Nat)) ∧
    (∀ i, (([(0, 2), (3, 4)] : List (Nat × Nat)).get? i).map (fun sp => sp.2 - sp.1) =
      ([[Token.mk "a" true, Token.mk "b" true], [Token.mk "c" false]].get? i).map
        List.length) ∧
    (([(0, 2), (3, 4)] : List (Nat × Nat)).map (fun sp =>
        spanSlice [⟨"a", true⟩, ⟨"b", false⟩, ⟨"\n\n", false⟩, ⟨"c", false⟩,
          ⟨"\n\n", false⟩] sp ++ sepToks (some "\n\n"))).flatten =
      [⟨"a", true⟩, ⟨"b", false⟩, ⟨"\n\n", false⟩, ⟨"c", false⟩, ⟨"\n\n", false⟩] :=
  c1_aligner_invariants (some "\n\n")
    [[Token.mk "a" true, Token.mk "b" true], [Token.mk "c" false]]
    ⟨[⟨"a", true⟩, ⟨"b", false⟩, ⟨"\n\n", false⟩, ⟨"c", false⟩, ⟨"\n\n", false⟩], 5,
      [(0, 2), (3, 4)]⟩ (by rfl)

/-- C4 (amended): when the first item is nonempty or no separator is
active, the aligner succeeds and every zero-token item yields a
zero-length span. -/
theorem c4_zero_token_item (sep : Option String) (inputs : List (List Token))
    (h : sepActive sep = true → headNonempty inputs) :
    (textsToDoc sep inputs).isSome = true ∧
    ∀ st, textsToDoc sep inputs = some st →
      ∀ i, inputs.get? i = some [] →
        (st.spanData.get? i).map (fun sp => sp.2 - sp.1) = some 0 := by
  have hchar := textsToDoc_char sep inputs h
  constructor
  · rw [hchar]
    rfl
  · intro st hst i hi
    rw [hchar] at hst
    obtain rfl : st = ⟨(inputs.map (procItem sep)).flatten,
        (inputs.map (itemStride sep)).sum, spansFrom sep 0 inputs⟩ := by
      injection hst with h2
      exact h2.symm
    show ((spansFrom sep 0 inputs).get? i).map (fun sp => sp.2 - sp.1) = some 0
    rw [spansFrom_get?, hi]
    simp

/-- C4 counterexample: a zero-token first item with the default
non-empty separator makes the aligner raise (IndexError on
`spaces[-1]`), not produce a zero-length span. -/
theorem c4_first_zero_token_cex :
    textsToDoc (some "\n\n") [[]] = none := rfl

/-- Witness for C4: with a nonempty first item, a later zero-token item
is accepted. -/
theorem c4_zero_token_item_witness :
    (textsToDoc (some "\n\n") [[Token.mk "a" true], []]).isSome = true :=
  (c4_zero_token_item (some "\n\n") [[Token.mk "a" true], []]
    (fun _ => by simp [headNonempty])).1

end Theorems

end SpacyLayout
